import Mathlib

/-!
Verification of the translation-memory engine of the TranslationApp backend
(`backend/main.py`).

The engine is embedded shallowly:

* The SQLite table `translations` (primary key `hash`, columns `original`,
  `translated`) is modelled as a list of `Translation` records in insertion
  order (`Store`).  `session.query(...).filter_by(hash=h).first()` is a
  first-match scan (`lookupExact`); `session.query(Translation).all()` is the
  list itself; `session.add(...)` + `session.commit()` is `insertTranslation`,
  which appends the record, or fails with an integrity error when a record
  with the same primary key already exists (SQLite's UNIQUE constraint on the
  primary key).
* `sha256` hex digests (`get_hash`), `SequenceMatcher(None, a, b).ratio()`
  (`ratio`) and the OpenAI chat call (`provider`) are external collaborators:
  they are passed as explicit function parameters.  Similarity ratios are
  modelled as exact rationals (`ℚ`); Python floats are not modelled.
* Python exceptions are modelled with `Except`: a raised provider or
  integrity error aborts the batch and carries the store as committed at that
  point (each successful insert was its own committed transaction).
* `time_seconds` (wall-clock time) is not modelled.
-/

namespace TranslationApp

/-- A row of the `translations` table: `hash` is the primary key
(the sha256 fingerprint of `original`). -/
structure Translation where
  hash : String
  original : String
  translated : String
deriving DecidableEq

/-- The `translations` table, as a list of rows in insertion order. -/
abbrev Store := List Translation

/-- The `match_type` tag attached to each per-unit result:
`"exact"`, `"fuzzy"` or `"new"` in the Python dict. -/
inductive MatchType where
  | exact
  | fuzzy
  | new
deriving DecidableEq

/-- One element of the `results` list built by `translate_batch`. -/
structure TResult where
  original : String
  translated : String
  match_type : MatchType
  similarity : Option ℚ
deriving DecidableEq

/-- The `stats` dict of `translate_batch` (minus `time_seconds`,
which is wall-clock time and is not modelled). -/
structure BatchStats where
  total : ℕ
  memory_hits : ℕ
  fuzzy_hits : ℕ
  openai_hits : ℕ
  efficiency : ℚ
deriving DecidableEq

/-- The dict returned by `translate_batch`: `translations` + `stats`. -/
structure BatchOutput where
  translations : List TResult
  stats : BatchStats
deriving DecidableEq

/-- Exceptions the engine can raise: a remote-provider error
(OpenAI call) or a database integrity error (duplicate primary key). -/
inductive EngineError where
  | provider (msg : String)
  | integrity (key : String)
deriving DecidableEq

/-- Outcome of one iteration of the `for text in texts` loop body:
the appended result, the store after the iteration, the increments of the
three hit counters, and the remote call made (if any). -/
structure StepOut where
  result : TResult
  store : Store
  dMemory : ℕ
  dFuzzy : ℕ
  dRemote : ℕ
  call : Option String
deriving DecidableEq

/-- Accumulated outcome of the whole `for` loop of `translate_batch`:
results in input order, final store, the three counters, and the list of
texts sent to the remote provider, in order. -/
structure LoopOut where
  results : List TResult
  store : Store
  memory_hits : ℕ
  fuzzy_hits : ℕ
  openai_hits : ℕ
  calls : List String
deriving DecidableEq

/-- `session.query(Translation).filter_by(hash=h).first()`:
first stored record whose primary key equals `h`. -/
def lookupExact (store : Store) (h : String) : Option Translation :=
  store.find? fun r => r.hash == h

/-- `session.add(Translation(...))` + `session.commit()` under the primary-key
constraint: appends the row, or raises an integrity error (carrying the
offending key) when a row with the same `hash` already exists. -/
def insertTranslation (store : Store) (rec : Translation) : Except String Store :=
  if store.any fun r => r.hash == rec.hash then .error rec.hash
  else .ok (store ++ [rec])

/-- The `for item in all_translations` loop of `find_fuzzy_match`, threading
the `(best_match, best_ratio)` accumulator (initially `(None, 0)`):
a candidate replaces the accumulator iff
`ratio > best_ratio and ratio >= threshold`. -/
def fuzzyLoop (ratio : String → String → ℚ) (text : String) (threshold : ℚ) :
    List Translation → Option Translation × ℚ → Option Translation × ℚ
  | [], acc => acc
  | item :: rest, (best_match, best_ratio) =>
    if best_ratio < ratio text item.original ∧ threshold ≤ ratio text item.original then
      fuzzyLoop ratio text threshold rest (some item, ratio text item.original)
    else
      fuzzyLoop ratio text threshold rest (best_match, best_ratio)

/-- `find_fuzzy_match(session, text, threshold)`: scans the full store and
returns `(best_match, best_ratio) if best_match else (None, 0)`.
`ratio` stands for `SequenceMatcher(None, text, item.original).ratio()`.
The Python default argument `threshold=0.9` is passed explicitly by callers
here. -/
def find_fuzzy_match (ratio : String → String → ℚ) (session : Store) (text : String)
    (threshold : ℚ) : Option Translation × ℚ :=
  match fuzzyLoop ratio text threshold session (none, 0) with
  | (some bm, br) => (some bm, br)
  | (none, _) => (none, 0)

/-- The `# OpenAI call` block of the loop body: call the provider; on
success insert + commit the new record and report a `new` result; a provider
or integrity error aborts, carrying the store committed so far. -/
def remoteCall (get_hash : String → String) (provider : String → Except String String)
    (store : Store) (text : String) : Except (EngineError × Store) StepOut :=
  match provider text with
  | .error e => .error (.provider e, store)
  | .ok translated =>
    match insertTranslation store ⟨get_hash text, text, translated⟩ with
    | .error k => .error (.integrity k, store)
    | .ok store2 =>
      .ok ⟨⟨text, translated, .new, none⟩, store2, 0, 0, 1, some text⟩

/-- Body of the `for text in texts` loop of `translate_batch`, for one unit:
exact lookup by fingerprint, else fuzzy match (engine guard
`fuzzy_match and ratio > 0.9`), else the remote-call block (Python reaches
it by falling through the single `and` guard; here it appears in both
no-fuzzy arms). `get_hash` is the sha256 fingerprint, `provider` the OpenAI
chat call. -/
def processUnit (get_hash : String → String) (ratio : String → String → ℚ)
    (provider : String → Except String String) (store : Store) (text : String) :
    Except (EngineError × Store) StepOut :=
  match lookupExact store (get_hash text) with
  | some existing =>
    .ok ⟨⟨text, existing.translated, .exact, some 1⟩, store, 1, 0, 0, none⟩
  | none =>
    match find_fuzzy_match ratio store text (9/10) with
    | (some fuzzy_match, r) =>
      if 9/10 < r then
        .ok ⟨⟨text, fuzzy_match.translated, .fuzzy, some r⟩, store, 0, 1, 0, none⟩
      else remoteCall get_hash provider store text
    | (none, _) => remoteCall get_hash provider store text

/-- The whole `for text in texts` loop of `translate_batch`: processes units
in order, threading the store; a raised error aborts the loop (no partial
results) and carries the store as committed at that point. -/
def translateLoop (get_hash : String → String) (ratio : String → String → ℚ)
    (provider : String → Except String String) (store : Store) :
    List String → Except (EngineError × Store) LoopOut
  | [] => .ok ⟨[], store, 0, 0, 0, []⟩
  | text :: rest =>
    match processUnit get_hash ratio provider store text with
    | .error e => .error e
    | .ok step =>
      match translateLoop get_hash ratio provider step.store rest with
      | .error es => .error es
      | .ok out =>
        .ok ⟨step.result :: out.results, out.store,
          step.dMemory + out.memory_hits, step.dFuzzy + out.fuzzy_hits,
          step.dRemote + out.openai_hits, step.call.toList ++ out.calls⟩

/-- Python's `round(q)` on an exact value: round half to even. -/
def roundHalfEven (q : ℚ) : ℤ :=
  if q - ⌊q⌋ < 1/2 then ⌊q⌋
  else if (1 : ℚ)/2 < q - ⌊q⌋ then ⌊q⌋ + 1
  else if ⌊q⌋ % 2 = 0 then ⌊q⌋ else ⌊q⌋ + 1

/-- Python's `round(q, 2)`: round to 2 decimal places, half to even
(the exact-rational model of the float computation). -/
def round2 (q : ℚ) : ℚ :=
  (roundHalfEven (q * 100) : ℚ) / 100

/-- `translate_batch(texts)`: runs the loop and assembles the
`{"translations": ..., "stats": ...}` dict.
`efficiency = round((memory_hits + fuzzy_hits) / len(texts) * 100, 2) if texts else 0`.
Also returns the final store and the list of remote calls made. -/
def translate_batch (get_hash : String → String) (ratio : String → String → ℚ)
    (provider : String → Except String String) (store : Store) (texts : List String) :
    Except (EngineError × Store) (BatchOutput × Store × List String) :=
  match translateLoop get_hash ratio provider store texts with
  | .error e => .error e
  | .ok out =>
    .ok (⟨out.results,
      ⟨texts.length, out.memory_hits, out.fuzzy_hits, out.openai_hits,
        if texts.isEmpty then 0
        else round2 (((out.memory_hits : ℚ) + (out.fuzzy_hits : ℚ)) / (texts.length : ℚ) * 100)⟩⟩,
      out.store, out.calls)

/-- Specification helper: the records that the remote-resolved (`new`-tagged)
results of a batch contribute to the store, in result order. -/
def newRecords (get_hash : String → String) (rs : List TResult) : Store :=
  (rs.filter fun res => res.match_type == MatchType.new).map
    fun res => ⟨get_hash res.original, res.original, res.translated⟩

/-! Concrete test doubles used to instantiate the external collaborators in
witness statements. -/

/-- Hash double: the identity (any deterministic fingerprint works here). -/
def idHash (s : String) : String := s

/-- Provider double that always succeeds. -/
def demoProvider (s : String) : Except String String := .ok (s ++ "!")

/-- Provider double that always fails. -/
def failProvider (s : String) : Except String String := .error ("down:" ++ s)

/-- Provider double failing exactly on `"b"`. -/
def mixedProvider (s : String) : Except String String :=
  if s = "b" then .error "boom" else .ok (s ++ "!")

/-- Similarity double: everything is wholly dissimilar. -/
def zeroRatio (_a _b : String) : ℚ := 0

/-- Similarity double assigning fixed ratios to the candidates `"c1"`/`"c2"`. -/
def ratioW (_a b : String) : ℚ :=
  if b = "c1" then 9/10 else if b = "c2" then 95/100 else 0

/-- Similarity double for a mixed 10-unit batch: the texts `"g1"` and
`"g2"` are near every candidate (ratio `0.91`), everything else is wholly
dissimilar. -/
def demoRatio (a _b : String) : ℚ :=
  if a = "g1" ∨ a = "g2" then 91/100 else 0

/-- Pre-populated store for the mixed 10-unit witness batch. -/
def eStore : Store :=
  [⟨"e1", "e1", "E1"⟩, ⟨"e2", "e2", "E2"⟩, ⟨"e3", "e3", "E3"⟩]

/-! ### Properties of the fuzzy-match scan -/

/-- If no candidate both reaches the threshold and beats the accumulator,
the scan leaves the accumulator untouched. -/
theorem fuzzyLoop_stay (ratio : String → String → ℚ) (text : String) (threshold : ℚ) :
    ∀ (l : List Translation) (m0 : Option Translation) (b0 : ℚ),
      (∀ c ∈ l, ratio text c.original < threshold ∨ ratio text c.original ≤ b0) →
      fuzzyLoop ratio text threshold l (m0, b0) = (m0, b0) := by
  intro l
  induction l with
  | nil => intro m0 b0 _; rfl
  | cons item rest ih =>
    intro m0 b0 h
    have hcond : ¬ (b0 < ratio text item.original ∧ threshold ≤ ratio text item.original) := by
      rcases h item (List.mem_cons_self _ _) with h1 | h2
      · exact fun hc => absurd hc.2 (not_le.mpr h1)
      · exact fun hc => absurd hc.1 (not_lt.mpr h2)
    simp only [fuzzyLoop, if_neg hcond]
    exact ih m0 b0 fun c hc => h c (List.mem_cons_of_mem _ hc)

/-- The tracked best ratio never decreases along the scan. -/
theorem fuzzyLoop_le (ratio : String → String → ℚ) (text : String) (threshold : ℚ) :
    ∀ (l : List Translation) (m0 : Option Translation) (b0 : ℚ),
      b0 ≤ (fuzzyLoop ratio text threshold l (m0, b0)).2 := by
  intro l
  induction l with
  | nil => intro m0 b0; exact le_refl _
  | cons item rest ih =>
    intro m0 b0
    by_cases hcond : b0 < ratio text item.original ∧ threshold ≤ ratio text item.original
    · simp only [fuzzyLoop, if_pos hcond]
      exact le_trans (le_of_lt hcond.1) (ih _ _)
    · simp only [fuzzyLoop, if_neg hcond]
      exact ih _ _

/-- Every candidate that reaches the threshold is bounded by the final
best ratio. -/
theorem fuzzyLoop_ub (ratio : String → String → ℚ) (text : String) (threshold : ℚ) :
    ∀ (l : List Translation) (m0 : Option Translation) (b0 : ℚ) (c : Translation),
      c ∈ l → threshold ≤ ratio text c.original →
      ratio text c.original ≤ (fuzzyLoop ratio text threshold l (m0, b0)).2 := by
  intro l
  induction l with
  | nil => intro m0 b0 c hc; exact absurd hc (List.not_mem_nil _)
  | cons item rest ih =>
    intro m0 b0 c hc hth
    by_cases hcond : b0 < ratio text item.original ∧ threshold ≤ ratio text item.original
    · simp only [fuzzyLoop, if_pos hcond]
      rcases List.mem_cons.mp hc with rfl | hmem
      · exact fuzzyLoop_le ratio text threshold rest _ _
      · exact ih _ _ c hmem hth
    · simp only [fuzzyLoop, if_neg hcond]
      rcases List.mem_cons.mp hc with rfl | hmem
      · have hle : ratio text c.original ≤ b0 := by
          rcases not_and_or.mp hcond with h1 | h2
          · exact not_lt.mp h1
          · exact absurd hth h2
        exact le_trans hle (fuzzyLoop_le ratio text threshold rest _ _)
      · exact ih _ _ c hmem hth

/-- The scan either leaves the accumulator untouched, or ends on some
candidate of the list whose ratio reaches the threshold and strictly beats
the initial best ratio. -/
theorem fuzzyLoop_achieve (ratio : String → String → ℚ) (text : String) (threshold : ℚ) :
    ∀ (l : List Translation) (m0 : Option Translation) (b0 : ℚ),
      fuzzyLoop ratio text threshold l (m0, b0) = (m0, b0) ∨
      ∃ m ∈ l, fuzzyLoop ratio text threshold l (m0, b0) = (some m, ratio text m.original) ∧
        threshold ≤ ratio text m.original ∧ b0 < ratio text m.original := by
  intro l
  induction l with
  | nil => intro m0 b0; exact Or.inl rfl
  | cons item rest ih =>
    intro m0 b0
    by_cases hcond : b0 < ratio text item.original ∧ threshold ≤ ratio text item.original
    · simp only [fuzzyLoop, if_pos hcond]
      rcases ih (some item) (ratio text item.original) with h | ⟨m, hm, heq, hth, hlt⟩
      · exact Or.inr ⟨item, List.mem_cons_self _ _, h, hcond.2, hcond.1⟩
      · exact Or.inr ⟨m, List.mem_cons_of_mem _ hm, heq, hth, lt_trans hcond.1 hlt⟩
    · simp only [fuzzyLoop, if_neg hcond]
      rcases ih m0 b0 with h | ⟨m, hm, heq, hth, hlt⟩
      · exact Or.inl h
      · exact Or.inr ⟨m, List.mem_cons_of_mem _ hm, heq, hth, hlt⟩

/-- Ties are won by the first candidate encountered: when the scan ends on a
match that strictly improved on the initial best ratio, that match is the
first list element whose ratio reaches the final best ratio. -/
theorem fuzzyLoop_first (ratio : String → String → ℚ) (text : String) (threshold : ℚ) :
    ∀ (l : List Translation) (m0 : Option Translation) (b0 : ℚ) (m : Translation) (br : ℚ),
      fuzzyLoop ratio text threshold l (m0, b0) = (some m, br) → b0 < br →
      l.find? (fun c => decide (br ≤ ratio text c.original)) = some m := by
  intro l
  induction l with
  | nil =>
    intro m0 b0 m br h hlt
    have hb : b0 = br := congrArg Prod.snd h
    exact absurd (hb ▸ hlt) (lt_irrefl _)
  | cons item rest ih =>
    intro m0 b0 m br h hlt
    by_cases hcond : b0 < ratio text item.original ∧ threshold ≤ ratio text item.original
    · simp only [fuzzyLoop, if_pos hcond] at h
      have hle : ratio text item.original ≤ br := by
        have hmono := fuzzyLoop_le ratio text threshold rest (some item) (ratio text item.original)
        rw [h] at hmono
        exact hmono
      rcases lt_or_eq_of_le hle with hlt2 | heq
      · rw [List.find?_cons_of_neg]
        · exact ih _ _ m br h hlt2
        · simpa using not_le.mpr hlt2
      · have hm : m = item := by
          rcases fuzzyLoop_achieve ratio text threshold rest (some item)
              (ratio text item.original) with h2 | ⟨m', _, heq', _, hlt'⟩
          · rw [h2] at h
            exact (Option.some_inj.mp (congrArg Prod.fst h)).symm
          · rw [heq'] at h
            have hbr : ratio text m'.original = br := congrArg Prod.snd h
            exact absurd (heq ▸ hbr ▸ hlt') (lt_irrefl _)
        subst hm
        rw [List.find?_cons_of_pos]
        simpa using le_of_eq heq.symm
    · simp only [fuzzyLoop, if_neg hcond] at h
      have hth_br : threshold ≤ br := by
        rcases fuzzyLoop_achieve ratio text threshold rest m0 b0 with h2 | ⟨m', _, heq', hth', _⟩
        · rw [h2] at h
          have hb : b0 = br := congrArg Prod.snd h
          exact absurd (hb ▸ hlt) (lt_irrefl _)
        · rw [heq'] at h
          have hbr : ratio text m'.original = br := congrArg Prod.snd h
          exact hbr ▸ hth'
      have hskip : ratio text item.original < br := by
        rcases not_and_or.mp hcond with h1 | h2
        · exact lt_of_le_of_lt (not_lt.mp h1) hlt
        · exact lt_of_lt_of_le (not_le.mp h2) hth_br
      rw [List.find?_cons_of_neg]
      · exact ih _ _ m br h hlt
      · simpa using not_le.mpr hskip

/-! ### Store lemmas -/

/-- A missed exact lookup means no stored record carries that key. -/
theorem lookupExact_none (store : Store) (h : String)
    (hn : lookupExact store h = none) : ∀ r ∈ store, r.hash ≠ h := by
  intro r hr
  have hx := List.find?_eq_none.mp hn r hr
  simpa using hx

/-- Inserting a record whose key is absent appends it. -/
theorem insertTranslation_ok (store : Store) (rec : Translation)
    (h : ∀ r ∈ store, r.hash ≠ rec.hash) :
    insertTranslation store rec = .ok (store ++ [rec]) := by
  have hany : (store.any fun r => r.hash == rec.hash) = false := by
    simp only [List.any_eq_false, beq_iff_eq]
    exact h
  simp [insertTranslation, hany]

/-- Inserting a record whose key is already present raises the integrity
error instead of being ignored. -/
theorem insertTranslation_dup (store : Store) (rec : Translation)
    (h : ∃ r ∈ store, r.hash = rec.hash) :
    insertTranslation store rec = .error rec.hash := by
  have hany : (store.any fun r => r.hash == rec.hash) = true := by
    simp only [List.any_eq_true, beq_iff_eq]
    exact h
  simp [insertTranslation, hany]

/-! ### Loop-body branch lemmas -/

/-- Exact-hit branch: the stored translation is returned, tagged `exact`
with similarity 1; the store is untouched and no remote call happens, for
any similarity function and any provider. -/
theorem processUnit_exact (gh : String → String) (ratio : String → String → ℚ)
    (provider : String → Except String String) (store : Store) (text : String)
    (rec : Translation) (hl : lookupExact store (gh text) = some rec) :
    processUnit gh ratio provider store text =
      .ok ⟨⟨text, rec.translated, .exact, some 1⟩, store, 1, 0, 0, none⟩ := by
  simp [processUnit, hl]

/-- Fuzzy-hit branch: on an exact miss with a matcher hit strictly above
`0.9`, the matched translation is returned, tagged `fuzzy` with the ratio as
similarity; the store is untouched and no remote call happens. -/
theorem processUnit_fuzzy (gh : String → String) (ratio : String → String → ℚ)
    (provider : String → Except String String) (store : Store) (text : String)
    (fm : Translation) (r : ℚ) (hl : lookupExact store (gh text) = none)
    (hf : find_fuzzy_match ratio store text (9/10) = (some fm, r)) (hr : 9/10 < r) :
    processUnit gh ratio provider store text =
      .ok ⟨⟨text, fm.translated, .fuzzy, some r⟩, store, 0, 1, 0, none⟩ := by
  simp [processUnit, hl, hf, hr]

/-- Remote branch: on an exact miss with no matcher hit strictly above
`0.9`, the loop body runs the remote-call block. -/
theorem processUnit_remote (gh : String → String) (ratio : String → String → ℚ)
    (provider : String → Except String String) (store : Store) (text : String)
    (fm : Option Translation) (r : ℚ) (hl : lookupExact store (gh text) = none)
    (hf : find_fuzzy_match ratio store text (9/10) = (fm, r)) (hr : r ≤ 9/10) :
    processUnit gh ratio provider store text = remoteCall gh provider store text := by
  cases fm with
  | none => simp [processUnit, hl, hf]
  | some m => simp [processUnit, hl, hf, not_lt.mpr hr]

/-- Remote-call block, provider failure: the provider error is raised,
carrying the store committed so far. -/
theorem remoteCall_err (gh : String → String) (provider : String → Except String String)
    (store : Store) (text : String) (e : String) (hp : provider text = .error e) :
    remoteCall gh provider store text = .error (.provider e, store) := by
  simp [remoteCall, hp]

/-- Remote-call block, provider success with the key absent: the new record
is appended and a `new`-tagged result reported, with the remote call
recorded. -/
theorem remoteCall_ok (gh : String → String) (provider : String → Except String String)
    (store : Store) (text : String) (translated : String)
    (hp : provider text = .ok translated)
    (habs : ∀ x ∈ store, x.hash ≠ gh text) :
    remoteCall gh provider store text =
      .ok ⟨⟨text, translated, .new, none⟩, store ++ [⟨gh text, text, translated⟩],
        0, 0, 1, some text⟩ := by
  simp [remoteCall, hp, insertTranslation_ok store ⟨gh text, text, translated⟩ habs]

/-- The loop body takes exactly one of the three tiers: exact hit, fuzzy hit
(strictly above `0.9`), or the remote-call block. -/
theorem processUnit_split (gh : String → String) (ratio : String → String → ℚ)
    (provider : String → Except String String) (store : Store) (text : String) :
    (∃ rec, lookupExact store (gh text) = some rec ∧
      processUnit gh ratio provider store text =
        .ok ⟨⟨text, rec.translated, .exact, some 1⟩, store, 1, 0, 0, none⟩) ∨
    (∃ fm r, lookupExact store (gh text) = none ∧
      find_fuzzy_match ratio store text (9/10) = (some fm, r) ∧ 9/10 < r ∧
      processUnit gh ratio provider store text =
        .ok ⟨⟨text, fm.translated, .fuzzy, some r⟩, store, 0, 1, 0, none⟩) ∨
    (lookupExact store (gh text) = none ∧
      processUnit gh ratio provider store text = remoteCall gh provider store text) := by
  cases hl : lookupExact store (gh text) with
  | some rec => exact Or.inl ⟨rec, rfl, processUnit_exact _ _ _ _ _ _ hl⟩
  | none =>
    rcases hf : find_fuzzy_match ratio store text (9/10) with ⟨fm, r⟩
    cases fm with
    | some m =>
      by_cases hr : 9/10 < r
      · exact Or.inr (Or.inl ⟨m, r, rfl, rfl, hr, processUnit_fuzzy _ _ _ _ _ _ _ hl hf hr⟩)
      · exact Or.inr (Or.inr ⟨rfl, processUnit_remote _ _ _ _ _ _ _ hl hf (not_lt.mp hr)⟩)
    | none =>
      exact Or.inr (Or.inr ⟨rfl, by simp [processUnit, hl, hf]⟩)

/-- A successful remote-call block means the provider succeeded, the key was
absent, and the step appended exactly the new record. -/
theorem remoteCall_ok_cases (gh : String → String) (provider : String → Except String String)
    (store : Store) (text : String) (step : StepOut)
    (h : remoteCall gh provider store text = .ok step) :
    (∀ x ∈ store, x.hash ≠ gh text) ∧
    ∃ tr, provider text = .ok tr ∧
      step = ⟨⟨text, tr, .new, none⟩, store ++ [⟨gh text, text, tr⟩], 0, 0, 1, some text⟩ := by
  cases hp : provider text with
  | error e =>
    rw [remoteCall_err gh provider store text e hp] at h
    exact absurd h (by simp)
  | ok tr =>
    simp only [remoteCall, hp] at h
    split at h
    · exact absurd h (by simp)
    case _ store2 heq =>
      unfold insertTranslation at heq
      split at heq
      · exact absurd heq (by simp)
      case _ hany =>
        injection heq with heq'
        injection h with h'
        subst h'
        refine ⟨?_, tr, rfl, by rw [← heq']⟩
        intro x hx hhash
        exact hany (by simp only [List.any_eq_true]; exact ⟨x, hx, by simp [hhash]⟩)

/-- Full case analysis of a successful loop-body step. -/
theorem processUnit_ok_cases (gh : String → String) (ratio : String → String → ℚ)
    (provider : String → Except String String) (store : Store) (text : String)
    (step : StepOut) (h : processUnit gh ratio provider store text = .ok step) :
    step.result.original = text ∧
    ((step.result.match_type = .exact ∧ step.store = store ∧ step.dMemory = 1 ∧
        step.dFuzzy = 0 ∧ step.dRemote = 0 ∧ step.call = none) ∨
     (step.result.match_type = .fuzzy ∧ step.store = store ∧ step.dMemory = 0 ∧
        step.dFuzzy = 1 ∧ step.dRemote = 0 ∧ step.call = none) ∨
     (step.result.match_type = .new ∧ (∀ x ∈ store, x.hash ≠ gh text) ∧
        step.store = store ++ [⟨gh text, text, step.result.translated⟩] ∧ step.dMemory = 0 ∧
        step.dFuzzy = 0 ∧ step.dRemote = 1 ∧ step.call = some text)) := by
  rcases processUnit_split gh ratio provider store text with
    ⟨rec, _, heq⟩ | ⟨fm, r, _, _, _, heq⟩ | ⟨_, heq⟩
  · rw [heq] at h
    injection h with h'
    subst h'
    exact ⟨rfl, Or.inl ⟨rfl, rfl, rfl, rfl, rfl, rfl⟩⟩
  · rw [heq] at h
    injection h with h'
    subst h'
    exact ⟨rfl, Or.inr (Or.inl ⟨rfl, rfl, rfl, rfl, rfl, rfl⟩)⟩
  · rw [heq] at h
    obtain ⟨habs, tr, -, hstep⟩ := remoteCall_ok_cases gh provider store text step h
    subst hstep
    exact ⟨rfl, Or.inr (Or.inr ⟨rfl, habs, rfl, rfl, rfl, rfl, rfl⟩)⟩

/-- A failed remote-call block carries the untouched store. -/
theorem remoteCall_error_store (gh : String → String)
    (provider : String → Except String String) (store : Store) (text : String)
    (e : EngineError) (s : Store)
    (h : remoteCall gh provider store text = .error (e, s)) : s = store := by
  cases hp : provider text with
  | error e' =>
    rw [remoteCall_err gh provider store text e' hp] at h
    injection h with h'
    exact (congrArg Prod.snd h').symm
  | ok tr =>
    simp only [remoteCall, hp] at h
    split at h
    case _ k heq =>
      injection h with h'
      exact (congrArg Prod.snd h').symm
    · exact absurd h (by simp)

/-- A failed loop-body step carries the untouched store. -/
theorem processUnit_error_store (gh : String → String) (ratio : String → String → ℚ)
    (provider : String → Except String String) (store : Store) (text : String)
    (e : EngineError) (s : Store)
    (h : processUnit gh ratio provider store text = .error (e, s)) : s = store := by
  rcases processUnit_split gh ratio provider store text with
    ⟨rec, _, heq⟩ | ⟨fm, r, _, _, _, heq⟩ | ⟨_, heq⟩
  · rw [heq] at h; exact absurd h (by simp)
  · rw [heq] at h; exact absurd h (by simp)
  · rw [heq] at h; exact remoteCall_error_store _ _ _ _ _ _ h

/-- The loop body never raises an integrity error: it only inserts after an
exact-lookup miss, so the key is always absent. -/
theorem processUnit_no_integrity (gh : String → String) (ratio : String → String → ℚ)
    (provider : String → Except String String) (store : Store) (text : String)
    (k : String) (s : Store) :
    processUnit gh ratio provider store text ≠ .error (.integrity k, s) := by
  intro h
  rcases processUnit_split gh ratio provider store text with
    ⟨rec, _, heq⟩ | ⟨fm, r, _, _, _, heq⟩ | ⟨hl, heq⟩
  · rw [heq] at h; exact absurd h (by simp)
  · rw [heq] at h; exact absurd h (by simp)
  · rw [heq] at h
    cases hp : provider text with
    | error e' =>
      rw [remoteCall_err gh provider store text e' hp] at h
      injection h with h'
      exact absurd (congrArg Prod.fst h') (by simp)
    | ok tr =>
      rw [remoteCall_ok gh provider store text tr hp
        (lookupExact_none store (gh text) hl)] at h
      exact absurd h (by simp)

/-- A successful loop-body step only ever appends to the store. -/
theorem processUnit_store_extends (gh : String → String) (ratio : String → String → ℚ)
    (provider : String → Except String String) (store : Store) (text : String)
    (step : StepOut) (h : processUnit gh ratio provider store text = .ok step) :
    ∃ d, step.store = store ++ d := by
  obtain ⟨-, hcase⟩ := processUnit_ok_cases gh ratio provider store text step h
  rcases hcase with ⟨-, hst, -⟩ | ⟨-, hst, -⟩ | ⟨-, -, hst, -⟩
  · exact ⟨[], by simp [hst]⟩
  · exact ⟨[], by simp [hst]⟩
  · exact ⟨[⟨gh text, text, step.result.translated⟩], hst⟩

/-! ### Whole-loop properties -/

/-- Master invariant of a successful run of the whole loop: results are in
input order tagged with their original texts; each counter counts the
results carrying the corresponding tag; the counters partition the batch;
and the final store is the initial store plus exactly the records of the
`new`-tagged results, in order. -/
theorem translateLoop_ok_spec (gh : String → String) (ratio : String → String → ℚ)
    (provider : String → Except String String) :
    ∀ (texts : List String) (store : Store) (out : LoopOut),
      translateLoop gh ratio provider store texts = .ok out →
      out.results.map TResult.original = texts ∧
      out.memory_hits = out.results.countP (fun res => res.match_type == MatchType.exact) ∧
      out.fuzzy_hits = out.results.countP (fun res => res.match_type == MatchType.fuzzy) ∧
      out.openai_hits = out.results.countP (fun res => res.match_type == MatchType.new) ∧
      out.memory_hits + out.fuzzy_hits + out.openai_hits = texts.length ∧
      out.store = store ++ newRecords gh out.results := by
  intro texts
  induction texts with
  | nil =>
    intro store out h
    simp only [translateLoop] at h
    injection h with h'
    subst h'
    simp [newRecords]
  | cons t ts ih =>
    intro store out h
    cases hp : processUnit gh ratio provider store t with
    | error e => simp [translateLoop, hp] at h
    | ok step =>
      cases hr : translateLoop gh ratio provider step.store ts with
      | error es => simp [translateLoop, hp, hr] at h
      | ok out' =>
        simp only [translateLoop, hp, hr] at h
        injection h with h'
        subst h'
        obtain ⟨horig, hcase⟩ := processUnit_ok_cases _ _ _ _ _ _ hp
        obtain ⟨hmap, hm, hf, ho, hsum, hstore⟩ := ih step.store out' hr
        rcases hcase with ⟨hmt, hst, hdm, hdf, hdr, hcall⟩ |
            ⟨hmt, hst, hdm, hdf, hdr, hcall⟩ | ⟨hmt, habs, hst, hdm, hdf, hdr, hcall⟩
        · refine ⟨by simp [horig, hmap], ?_, ?_, ?_, ?_, ?_⟩
          · simp [List.countP_cons, hmt, hdm, hm, Nat.add_comm]
          · simp [List.countP_cons, hmt, hdf, hf, Nat.add_comm]
          · simp [List.countP_cons, hmt, hdr, ho, Nat.add_comm]
          · simp only [hdm, hdf, hdr, List.length_cons]
            omega
          · rw [hstore, hst]
            simp [newRecords, List.filter_cons, hmt]
        · refine ⟨by simp [horig, hmap], ?_, ?_, ?_, ?_, ?_⟩
          · simp [List.countP_cons, hmt, hdm, hm, Nat.add_comm]
          · simp [List.countP_cons, hmt, hdf, hf, Nat.add_comm]
          · simp [List.countP_cons, hmt, hdr, ho, Nat.add_comm]
          · simp only [hdm, hdf, hdr, List.length_cons]
            omega
          · rw [hstore, hst]
            simp [newRecords, List.filter_cons, hmt]
        · refine ⟨by simp [horig, hmap], ?_, ?_, ?_, ?_, ?_⟩
          · simp [List.countP_cons, hmt, hdm, hm, Nat.add_comm]
          · simp [List.countP_cons, hmt, hdf, hf, Nat.add_comm]
          · simp [List.countP_cons, hmt, hdr, ho, Nat.add_comm]
          · simp only [hdm, hdf, hdr, List.length_cons]
            omega
          · rw [hstore, hst]
            simp [newRecords, List.filter_cons, hmt, horig]

/-- When the loop aborts with an error, the store it carries still extends
the store the batch started from: records committed by earlier units of the
batch stay committed. -/
theorem translateLoop_error_extends (gh : String → String) (ratio : String → String → ℚ)
    (provider : String → Except String String) :
    ∀ (texts : List String) (store : Store) (e : EngineError) (s : Store),
      translateLoop gh ratio provider store texts = .error (e, s) →
      ∃ added, s = store ++ added := by
  intro texts
  induction texts with
  | nil => intro store e s h; simp [translateLoop] at h
  | cons t ts ih =>
    intro store e s h
    cases hp : processUnit gh ratio provider store t with
    | error ep =>
      simp only [translateLoop, hp] at h
      injection h with h'
      rw [h'] at hp
      exact ⟨[], by simp [processUnit_error_store _ _ _ _ _ _ _ hp]⟩
    | ok step =>
      cases hr : translateLoop gh ratio provider step.store ts with
      | error es =>
        simp only [translateLoop, hp, hr] at h
        injection h with h'
        rw [h'] at hr
        obtain ⟨added2, h2⟩ := ih step.store e s hr
        obtain ⟨d, hd⟩ := processUnit_store_extends _ _ _ _ _ _ hp
        exact ⟨d ++ added2, by rw [h2, hd, List.append_assoc]⟩
      | ok out => simp [translateLoop, hp, hr] at h

/-- When the loop aborts with an error, that error is a provider failure:
the integrity error is unreachable. -/
theorem translateLoop_error_provider (gh : String → String) (ratio : String → String → ℚ)
    (provider : String → Except String String) :
    ∀ (texts : List String) (store : Store) (e : EngineError) (s : Store),
      translateLoop gh ratio provider store texts = .error (e, s) →
      ∃ msg, e = .provider msg := by
  intro texts
  induction texts with
  | nil => intro store e s h; simp [translateLoop] at h
  | cons t ts ih =>
    intro store e s h
    cases hp : processUnit gh ratio provider store t with
    | error ep =>
      simp only [translateLoop, hp] at h
      injection h with h'
      rw [h'] at hp
      cases e with
      | provider m => exact ⟨m, rfl⟩
      | integrity k => exact absurd hp (processUnit_no_integrity _ _ _ _ _ _ _)
    | ok step =>
      cases hr : translateLoop gh ratio provider step.store ts with
      | error es =>
        simp only [translateLoop, hp, hr] at h
        injection h with h'
        rw [h'] at hr
        exact ih step.store e s hr
      | ok out => simp [translateLoop, hp, hr] at h

/-- The loop preserves uniqueness of the primary key: if the starting store
has pairwise-distinct hashes, so does the final store of a successful run. -/
theorem translateLoop_nodup (gh : String → String) (ratio : String → String → ℚ)
    (provider : String → Except String String) :
    ∀ (texts : List String) (store : Store) (out : LoopOut),
      (store.map Translation.hash).Nodup →
      translateLoop gh ratio provider store texts = .ok out →
      (out.store.map Translation.hash).Nodup := by
  intro texts
  induction texts with
  | nil =>
    intro store out hnd h
    simp only [translateLoop] at h
    injection h with h'
    subst h'
    exact hnd
  | cons t ts ih =>
    intro store out hnd h
    cases hp : processUnit gh ratio provider store t with
    | error e => simp [translateLoop, hp] at h
    | ok step =>
      cases hr : translateLoop gh ratio provider step.store ts with
      | error es => simp [translateLoop, hp, hr] at h
      | ok out' =>
        simp only [translateLoop, hp, hr] at h
        injection h with h'
        subst h'
        refine ih step.store out' ?_ hr
        obtain ⟨-, hcase⟩ := processUnit_ok_cases _ _ _ _ _ _ hp
        rcases hcase with ⟨-, hst, -⟩ | ⟨-, hst, -⟩ | ⟨-, habs, hst, -⟩
        · rw [hst]; exact hnd
        · rw [hst]; exact hnd
        · rw [hst]
          simp only [List.map_append, List.map_cons, List.map_nil]
          rw [List.nodup_append]
          refine ⟨hnd, List.nodup_singleton _, ?_⟩
          intro a ha hb
          simp only [List.mem_singleton] at hb
          subst hb
          obtain ⟨x, hx, hxh⟩ := List.mem_map.mp ha
          exact habs x hx hxh

/-- Unpacking a successful `translate_batch` call into its loop outcome. -/
theorem translate_batch_ok_parts (gh : String → String) (ratio : String → String → ℚ)
    (provider : String → Except String String) (store : Store) (texts : List String)
    (bo : BatchOutput) (s : Store) (calls : List String)
    (h : translate_batch gh ratio provider store texts = .ok (bo, s, calls)) :
    ∃ out, translateLoop gh ratio provider store texts = .ok out ∧
      bo = ⟨out.results,
        ⟨texts.length, out.memory_hits, out.fuzzy_hits, out.openai_hits,
          if texts.isEmpty then 0
          else round2 (((out.memory_hits : ℚ) + (out.fuzzy_hits : ℚ)) /
            (texts.length : ℚ) * 100)⟩⟩ ∧
      s = out.store ∧ calls = out.calls := by
  cases hl : translateLoop gh ratio provider store texts with
  | error e => simp [translate_batch, hl] at h
  | ok out =>
    simp only [translate_batch, hl] at h
    injection h with h'
    simp only [Prod.mk.injEq] at h'
    exact ⟨out, rfl, h'.1.symm, h'.2.1.symm, h'.2.2.symm⟩

/-! ### Ground evaluation helpers for the witnesses -/

/-- The fuzzy matcher finds nothing in an empty store. -/
theorem ffm_nil (ratio : String → String → ℚ) (t : String) (th : ℚ) :
    find_fuzzy_match ratio [] t th = (none, 0) := rfl

/-- The fuzzy matcher finds nothing under the all-zero similarity double. -/
theorem ffm_zero (S : Store) (t : String) :
    find_fuzzy_match zeroRatio S t (9/10) = (none, 0) := by
  have h := fuzzyLoop_stay zeroRatio t (9/10) S none 0
    (fun c _ => Or.inl (by norm_num [zeroRatio]))
  simp [find_fuzzy_match, h]

/-- The fuzzy matcher finds nothing under `demoRatio` for texts other than
`"g1"`/`"g2"`. -/
theorem ffm_demoRatio_miss (S : Store) (t : String) (h1 : t ≠ "g1") (h2 : t ≠ "g2") :
    find_fuzzy_match demoRatio S t (9/10) = (none, 0) := by
  have h := fuzzyLoop_stay demoRatio t (9/10) S none 0
    (fun c _ => Or.inl (by simp [demoRatio, h1, h2]))
  simp [find_fuzzy_match, h]

/-- An exact lookup keyed by the head record's hash returns the head. -/
theorem lookupExact_head (h o tr : String) (rest : Store) :
    lookupExact (⟨h, o, tr⟩ :: rest) h = some ⟨h, o, tr⟩ := by
  simp [lookupExact, List.find?_cons_of_pos]

/-- Concrete run: unit `"a"` against the empty store goes remote. -/
theorem demoStep_a : processUnit idHash zeroRatio demoProvider [] "a" =
    .ok ⟨⟨"a", "a!", .new, none⟩, [⟨"a", "a", "a!"⟩], 0, 0, 1, some "a"⟩ := by
  rw [processUnit_remote idHash zeroRatio demoProvider [] "a" none 0 rfl
    (ffm_nil _ _ _) (by norm_num)]
  rw [remoteCall_ok idHash demoProvider [] "a" "a!" rfl (by simp)]
  rfl

/-- Concrete run: unit `"b"` misses the one-record store and goes remote. -/
theorem demoStep_b : processUnit idHash zeroRatio demoProvider [⟨"a", "a", "a!"⟩] "b" =
    .ok ⟨⟨"b", "b!", .new, none⟩, [⟨"a", "a", "a!"⟩, ⟨"b", "b", "b!"⟩],
      0, 0, 1, some "b"⟩ := by
  rw [processUnit_remote idHash zeroRatio demoProvider [⟨"a", "a", "a!"⟩] "b" none 0
    (by decide) (ffm_zero _ _) (by norm_num)]
  rw [remoteCall_ok idHash demoProvider [⟨"a", "a", "a!"⟩] "b" "b!" rfl (by decide)]
  rfl

/-- Concrete run: unit `"a"` now hits its own record exactly. -/
theorem demoStep_a2 :
    processUnit idHash zeroRatio demoProvider [⟨"a", "a", "a!"⟩, ⟨"b", "b", "b!"⟩] "a" =
    .ok ⟨⟨"a", "a!", .exact, some 1⟩, [⟨"a", "a", "a!"⟩, ⟨"b", "b", "b!"⟩],
      1, 0, 0, none⟩ :=
  processUnit_exact idHash zeroRatio demoProvider
    [⟨"a", "a", "a!"⟩, ⟨"b", "b", "b!"⟩] "a" ⟨"a", "a", "a!"⟩ (by decide)

/-- Concrete run: unit `"b"` also hits its own record exactly. -/
theorem demoStep_b2 :
    processUnit idHash zeroRatio demoProvider [⟨"a", "a", "a!"⟩, ⟨"b", "b", "b!"⟩] "b" =
    .ok ⟨⟨"b", "b!", .exact, some 1⟩, [⟨"a", "a", "a!"⟩, ⟨"b", "b", "b!"⟩],
      1, 0, 0, none⟩ :=
  processUnit_exact idHash zeroRatio demoProvider
    [⟨"a", "a", "a!"⟩, ⟨"b", "b", "b!"⟩] "b" ⟨"b", "b", "b!"⟩ (by decide)

/-- Concrete run of the loop on the batch `["a", "b", "a", "b"]`. -/
theorem demoLoop_eval : translateLoop idHash zeroRatio demoProvider [] ["a", "b", "a", "b"] =
    .ok ⟨[⟨"a", "a!", .new, none⟩, ⟨"b", "b!", .new, none⟩,
        ⟨"a", "a!", .exact, some 1⟩, ⟨"b", "b!", .exact, some 1⟩],
      [⟨"a", "a", "a!"⟩, ⟨"b", "b", "b!"⟩], 2, 0, 2, ["a", "b"]⟩ := by
  simp [translateLoop, demoStep_a, demoStep_b, demoStep_a2, demoStep_b2]

/-- Concrete run of the whole batch call on `["a", "b", "a", "b"]`. -/
theorem demoBatch_eval :
    translate_batch idHash zeroRatio demoProvider [] ["a", "b", "a", "b"] =
    .ok (⟨[⟨"a", "a!", .new, none⟩, ⟨"b", "b!", .new, none⟩,
        ⟨"a", "a!", .exact, some 1⟩, ⟨"b", "b!", .exact, some 1⟩],
      ⟨4, 2, 0, 2, 50⟩⟩,
      [⟨"a", "a", "a!"⟩, ⟨"b", "b", "b!"⟩], ["a", "b"]) := by
  simp only [translate_batch, demoLoop_eval]
  norm_num [round2, roundHalfEven]

/-- Under `demoRatio`, the matcher resolves `"g1"` to the first stored
candidate with ratio `0.91`. -/
theorem ffm_g1 : find_fuzzy_match demoRatio eStore "g1" (9/10) =
    (some ⟨"e1", "e1", "E1"⟩, 91/100) := by
  have hg : ∀ b, demoRatio "g1" b = 91/100 := fun b => by simp [demoRatio]
  norm_num [find_fuzzy_match, fuzzyLoop, eStore, hg]

/-- Under `demoRatio`, the matcher resolves `"g2"` to the first stored
candidate with ratio `0.91`. -/
theorem ffm_g2 : find_fuzzy_match demoRatio eStore "g2" (9/10) =
    (some ⟨"e1", "e1", "E1"⟩, 91/100) := by
  have hg : ∀ b, demoRatio "g2" b = 91/100 := fun b => by simp [demoRatio]
  norm_num [find_fuzzy_match, fuzzyLoop, eStore, hg]

/-- Mixed batch, units 1–3: exact hits on the pre-populated store. -/
theorem bigStep_e1 : processUnit idHash demoRatio demoProvider eStore "e1" =
    .ok ⟨⟨"e1", "E1", .exact, some 1⟩, eStore, 1, 0, 0, none⟩ :=
  processUnit_exact idHash demoRatio demoProvider eStore "e1" ⟨"e1", "e1", "E1"⟩ (by decide)

/-- Mixed batch, unit 2. -/
theorem bigStep_e2 : processUnit idHash demoRatio demoProvider eStore "e2" =
    .ok ⟨⟨"e2", "E2", .exact, some 1⟩, eStore, 1, 0, 0, none⟩ :=
  processUnit_exact idHash demoRatio demoProvider eStore "e2" ⟨"e2", "e2", "E2"⟩ (by decide)

/-- Mixed batch, unit 3. -/
theorem bigStep_e3 : processUnit idHash demoRatio demoProvider eStore "e3" =
    .ok ⟨⟨"e3", "E3", .exact, some 1⟩, eStore, 1, 0, 0, none⟩ :=
  processUnit_exact idHash demoRatio demoProvider eStore "e3" ⟨"e3", "e3", "E3"⟩ (by decide)

/-- Mixed batch, unit 4: fuzzy hit at ratio `0.91`. -/
theorem bigStep_g1 : processUnit idHash demoRatio demoProvider eStore "g1" =
    .ok ⟨⟨"g1", "E1", .fuzzy, some (91/100)⟩, eStore, 0, 1, 0, none⟩ :=
  processUnit_fuzzy idHash demoRatio demoProvider eStore "g1" ⟨"e1", "e1", "E1"⟩
    (91/100) (by decide) ffm_g1 (by norm_num)

/-- Mixed batch, unit 5: fuzzy hit at ratio `0.91`. -/
theorem bigStep_g2 : processUnit idHash demoRatio demoProvider eStore "g2" =
    .ok ⟨⟨"g2", "E1", .fuzzy, some (91/100)⟩, eStore, 0, 1, 0, none⟩ :=
  processUnit_fuzzy idHash demoRatio demoProvider eStore "g2" ⟨"e1", "e1", "E1"⟩
    (91/100) (by decide) ffm_g2 (by norm_num)

/-- Mixed batch, unit 6: remote call. -/
theorem bigStep_n1 : processUnit idHash demoRatio demoProvider eStore "n1" =
    .ok ⟨⟨"n1", "n1!", .new, none⟩, eStore ++ [⟨"n1", "n1", "n1!"⟩],
      0, 0, 1, some "n1"⟩ := by
  rw [processUnit_remote idHash demoRatio demoProvider eStore "n1" none 0
    (by decide) (ffm_demoRatio_miss _ _ (by decide) (by decide)) (by norm_num)]
  rw [remoteCall_ok idHash demoProvider eStore "n1" "n1!" rfl (by decide)]
  rfl

/-- Mixed batch, unit 7: remote call. -/
theorem bigStep_n2 : processUnit idHash demoRatio demoProvider
    (eStore ++ [⟨"n1", "n1", "n1!"⟩]) "n2" =
    .ok ⟨⟨"n2", "n2!", .new, none⟩,
      eStore ++ [⟨"n1", "n1", "n1!"⟩, ⟨"n2", "n2", "n2!"⟩], 0, 0, 1, some "n2"⟩ := by
  rw [processUnit_remote idHash demoRatio demoProvider _ "n2" none 0
    (by decide) (ffm_demoRatio_miss _ _ (by decide) (by decide)) (by norm_num)]
  rw [remoteCall_ok idHash demoProvider _ "n2" "n2!" rfl (by decide)]
  simp [idHash]

/-- Mixed batch, unit 8: remote call. -/
theorem bigStep_n3 : processUnit idHash demoRatio demoProvider
    (eStore ++ [⟨"n1", "n1", "n1!"⟩, ⟨"n2", "n2", "n2!"⟩]) "n3" =
    .ok ⟨⟨"n3", "n3!", .new, none⟩,
      eStore ++ [⟨"n1", "n1", "n1!"⟩, ⟨"n2", "n2", "n2!"⟩, ⟨"n3", "n3", "n3!"⟩],
      0, 0, 1, some "n3"⟩ := by
  rw [processUnit_remote idHash demoRatio demoProvider _ "n3" none 0
    (by decide) (ffm_demoRatio_miss _ _ (by decide) (by decide)) (by norm_num)]
  rw [remoteCall_ok idHash demoProvider _ "n3" "n3!" rfl (by decide)]
  simp [idHash]

/-- Mixed batch, unit 9: remote call. -/
theorem bigStep_n4 : processUnit idHash demoRatio demoProvider
    (eStore ++ [⟨"n1", "n1", "n1!"⟩, ⟨"n2", "n2", "n2!"⟩, ⟨"n3", "n3", "n3!"⟩]) "n4" =
    .ok ⟨⟨"n4", "n4!", .new, none⟩,
      eStore ++ [⟨"n1", "n1", "n1!"⟩, ⟨"n2", "n2", "n2!"⟩, ⟨"n3", "n3", "n3!"⟩,
        ⟨"n4", "n4", "n4!"⟩], 0, 0, 1, some "n4"⟩ := by
  rw [processUnit_remote idHash demoRatio demoProvider _ "n4" none 0
    (by decide) (ffm_demoRatio_miss _ _ (by decide) (by decide)) (by norm_num)]
  rw [remoteCall_ok idHash demoProvider _ "n4" "n4!" rfl (by decide)]
  simp [idHash]

/-- Mixed batch, unit 10: remote call. -/
theorem bigStep_n5 : processUnit idHash demoRatio demoProvider
    (eStore ++ [⟨"n1", "n1", "n1!"⟩, ⟨"n2", "n2", "n2!"⟩, ⟨"n3", "n3", "n3!"⟩,
      ⟨"n4", "n4", "n4!"⟩]) "n5" =
    .ok ⟨⟨"n5", "n5!", .new, none⟩,
      eStore ++ [⟨"n1", "n1", "n1!"⟩, ⟨"n2", "n2", "n2!"⟩, ⟨"n3", "n3", "n3!"⟩,
        ⟨"n4", "n4", "n4!"⟩, ⟨"n5", "n5", "n5!"⟩], 0, 0, 1, some "n5"⟩ := by
  rw [processUnit_remote idHash demoRatio demoProvider _ "n5" none 0
    (by decide) (ffm_demoRatio_miss _ _ (by decide) (by decide)) (by norm_num)]
  rw [remoteCall_ok idHash demoProvider _ "n5" "n5!" rfl (by decide)]
  simp [idHash]

/-- Concrete run of the loop on the mixed 10-unit batch: 3 exact hits,
2 fuzzy hits, 5 remote calls. -/
theorem bigLoop_eval : translateLoop idHash demoRatio demoProvider eStore
    ["e1", "e2", "e3", "g1", "g2", "n1", "n2", "n3", "n4", "n5"] =
    .ok ⟨[⟨"e1", "E1", .exact, some 1⟩, ⟨"e2", "E2", .exact, some 1⟩,
        ⟨"e3", "E3", .exact, some 1⟩, ⟨"g1", "E1", .fuzzy, some (91/100)⟩,
        ⟨"g2", "E1", .fuzzy, some (91/100)⟩, ⟨"n1", "n1!", .new, none⟩,
        ⟨"n2", "n2!", .new, none⟩, ⟨"n3", "n3!", .new, none⟩,
        ⟨"n4", "n4!", .new, none⟩, ⟨"n5", "n5!", .new, none⟩],
      eStore ++ [⟨"n1", "n1", "n1!"⟩, ⟨"n2", "n2", "n2!"⟩, ⟨"n3", "n3", "n3!"⟩,
        ⟨"n4", "n4", "n4!"⟩, ⟨"n5", "n5", "n5!"⟩],
      3, 2, 5, ["n1", "n2", "n3", "n4", "n5"]⟩ := by
  simp [translateLoop, bigStep_e1, bigStep_e2, bigStep_e3, bigStep_g1, bigStep_g2,
    bigStep_n1, bigStep_n2, bigStep_n3, bigStep_n4, bigStep_n5]

/-- Concrete run of the whole batch call on the mixed 10-unit batch:
efficiency `(3 + 2) / 10 * 100 = 50`. -/
theorem bigBatch_eval : translate_batch idHash demoRatio demoProvider eStore
    ["e1", "e2", "e3", "g1", "g2", "n1", "n2", "n3", "n4", "n5"] =
    .ok (⟨[⟨"e1", "E1", .exact, some 1⟩, ⟨"e2", "E2", .exact, some 1⟩,
        ⟨"e3", "E3", .exact, some 1⟩, ⟨"g1", "E1", .fuzzy, some (91/100)⟩,
        ⟨"g2", "E1", .fuzzy, some (91/100)⟩, ⟨"n1", "n1!", .new, none⟩,
        ⟨"n2", "n2!", .new, none⟩, ⟨"n3", "n3!", .new, none⟩,
        ⟨"n4", "n4!", .new, none⟩, ⟨"n5", "n5!", .new, none⟩],
      ⟨10, 3, 2, 5, 50⟩⟩,
      eStore ++ [⟨"n1", "n1", "n1!"⟩, ⟨"n2", "n2", "n2!"⟩, ⟨"n3", "n3", "n3!"⟩,
        ⟨"n4", "n4", "n4!"⟩, ⟨"n5", "n5", "n5!"⟩],
      ["n1", "n2", "n3", "n4", "n5"]) := by
  simp only [translate_batch, bigLoop_eval]
  norm_num [round2, roundHalfEven]

/-- Under `ratioW`, the matcher resolves `"x"` against the candidate `"c2"`
with ratio `0.95`. -/
theorem ffm_w2 : find_fuzzy_match ratioW [⟨"h2", "c2", "t2"⟩] "x" (9/10) =
    (some ⟨"h2", "c2", "t2"⟩, 95/100) := by
  have hn : ("c2" : String) ≠ "c1" := by decide
  norm_num [find_fuzzy_match, fuzzyLoop, ratioW, hn]

/-- Concrete run: `mixedProvider` still succeeds on `"a"`. -/
theorem mixedStep_a : processUnit idHash zeroRatio mixedProvider [] "a" =
    .ok ⟨⟨"a", "a!", .new, none⟩, [⟨"a", "a", "a!"⟩], 0, 0, 1, some "a"⟩ := by
  rw [processUnit_remote idHash zeroRatio mixedProvider [] "a" none 0 rfl
    (ffm_nil _ _ _) (by norm_num)]
  have hp : mixedProvider "a" = .ok "a!" := rfl
  rw [remoteCall_ok idHash mixedProvider [] "a" "a!" hp (by simp)]
  rfl

/-- Concrete run: `mixedProvider` fails on `"b"`, aborting the tail of the
batch while the store keeps the record committed for `"a"`. -/
theorem mixedLoop_tail :
    translateLoop idHash zeroRatio mixedProvider [⟨"a", "a", "a!"⟩] ["b"] =
    .error (.provider "boom", [⟨"a", "a", "a!"⟩]) := by
  have h1 : processUnit idHash zeroRatio mixedProvider [⟨"a", "a", "a!"⟩] "b" =
      .error (.provider "boom", [⟨"a", "a", "a!"⟩]) := by
    rw [processUnit_remote idHash zeroRatio mixedProvider [⟨"a", "a", "a!"⟩] "b" none 0
      (by decide) (ffm_zero _ _) (by norm_num)]
    rw [remoteCall_err idHash mixedProvider [⟨"a", "a", "a!"⟩] "b" "boom" rfl]
  simp [translateLoop, h1]

/-- Concrete run: the always-failing provider aborts the singleton batch at
once, leaving the empty store untouched. -/
theorem failLoop_eval : translateLoop idHash zeroRatio failProvider [] ["a"] =
    .error (.provider "down:a", []) := by
  have h1 : processUnit idHash zeroRatio failProvider [] "a" =
      .error (.provider "down:a", []) := by
    rw [processUnit_remote idHash zeroRatio failProvider [] "a" none 0 rfl
      (ffm_nil _ _ _) (by norm_num)]
    rw [remoteCall_err idHash failProvider [] "a" "down:a" rfl]
  simp [translateLoop, h1]

/-! ### The claims -/

/-- C7: `find_fuzzy_match`, given a text, a candidate sequence and a
(positive) threshold — the caller passes the default `0.9` — returns the
candidate whose `original` has the highest similarity ratio to the text
when that best ratio is `>=` the threshold, together with that ratio; when
no candidate reaches the threshold it returns no match with ratio `0`; on
ties for the best ratio, the first candidate encountered wins (the returned
match is the first list element whose ratio reaches the best ratio). -/
theorem claim_C7 :
    (∀ (ratio : String → String → ℚ) (session : Store) (text : String) (threshold : ℚ),
      (∀ c ∈ session, ratio text c.original < threshold) →
      find_fuzzy_match ratio session text threshold = (none, 0)) ∧
    (∀ (ratio : String → String → ℚ) (session : Store) (text : String) (threshold : ℚ)
      (c : Translation), 0 < threshold → c ∈ session →
      threshold ≤ ratio text c.original →
      (∀ x ∈ session, ratio text x.original ≤ ratio text c.original) →
      ∃ m, find_fuzzy_match ratio session text threshold =
          (some m, ratio text c.original) ∧
        m ∈ session ∧ ratio text m.original = ratio text c.original ∧
        session.find? (fun x => decide (ratio text c.original ≤ ratio text x.original)) =
          some m) := by
  constructor
  · intro ratio session text threshold h
    have hs := fuzzyLoop_stay ratio text threshold session none 0
      (fun c hc => Or.inl (h c hc))
    simp [find_fuzzy_match, hs]
  · intro ratio session text threshold c hpos hc hth hbest
    rcases fuzzyLoop_achieve ratio text threshold session none 0 with
      h2 | ⟨m, hm, heq, hth', hlt⟩
    · have hub := fuzzyLoop_ub ratio text threshold session none 0 c hc hth
      rw [h2] at hub
      exact absurd (lt_of_lt_of_le hpos (le_trans hth hub)) (lt_irrefl 0)
    · have hub := fuzzyLoop_ub ratio text threshold session none 0 c hc hth
      rw [heq] at hub
      have hbm : ratio text m.original = ratio text c.original :=
        le_antisymm (hbest m hm) hub
      refine ⟨m, ?_, hm, hbm, ?_⟩
      · simp [find_fuzzy_match, heq, hbm]
      · have hfirst := fuzzyLoop_first ratio text threshold session none 0 m
          (ratio text m.original) heq (by rw [hbm]; exact lt_of_lt_of_le hpos hth)
        rw [hbm] at hfirst
        exact hfirst

/-- Witness for C7 at concrete inputs: no candidate reaches the threshold
under the all-zero double; under `ratioW` the single candidate `"c2"` is
returned with its ratio `0.95`. -/
theorem claim_C7_witness :
    find_fuzzy_match zeroRatio [⟨"h1", "c1", "t1"⟩] "x" (9/10) = (none, 0) ∧
    (∃ m, find_fuzzy_match ratioW [⟨"h1", "c1", "t1"⟩, ⟨"h2", "c2", "t2"⟩] "x" (9/10) =
        (some m, ratioW "x" (Translation.mk "h2" "c2" "t2").original) ∧
      m ∈ [Translation.mk "h1" "c1" "t1", Translation.mk "h2" "c2" "t2"] ∧
      ratioW "x" m.original = ratioW "x" (Translation.mk "h2" "c2" "t2").original ∧
      List.find? (fun x =>
          decide (ratioW "x" (Translation.mk "h2" "c2" "t2").original ≤
            ratioW "x" x.original))
        [Translation.mk "h1" "c1" "t1", Translation.mk "h2" "c2" "t2"] = some m) :=
  ⟨claim_C7.1 zeroRatio [⟨"h1", "c1", "t1"⟩] "x" (9/10)
      (fun c _ => by norm_num [zeroRatio]),
   claim_C7.2 ratioW [⟨"h1", "c1", "t1"⟩, ⟨"h2", "c2", "t2"⟩] "x" (9/10)
      ⟨"h2", "c2", "t2"⟩ (by norm_num) (by simp)
      (by
        have hn : ("c2" : String) ≠ "c1" := by decide
        norm_num [ratioW, hn])
      (by
        intro x hx
        have hn : ("c2" : String) ≠ "c1" := by decide
        rcases List.mem_cons.mp hx with rfl | hx2
        · norm_num [ratioW, hn]
        · rcases List.mem_cons.mp hx2 with rfl | hx3
          · norm_num [ratioW, hn]
          · exact absurd hx3 (List.not_mem_nil _))⟩

/-- C5 counterexample: inserting a record whose fingerprint key already
exists is NOT a no-op success — the insert raises the integrity error
(modelling SQLite's UNIQUE-constraint `IntegrityError` on
`session.add` + `session.commit`). -/
theorem claim_C5_counterexample :
    insertTranslation [⟨"k", "a", "b"⟩] ⟨"k", "a", "c"⟩ = .error "k" :=
  insertTranslation_dup [⟨"k", "a", "b"⟩] ⟨"k", "a", "c"⟩ ⟨⟨"k", "a", "b"⟩, by simp, rfl⟩

/-- C5 (amended): inserting a record whose fingerprint key already exists in
the store raises an integrity error (it does not silently succeed), and an
insert with an absent key appends the record; the engine itself only
inserts after an exact-lookup miss, so a batch never raises the integrity
error, and the store never holds two records with the same fingerprint
(key-uniqueness is preserved by every run). -/
theorem claim_C5 :
    (∀ (store : Store) (rec : Translation), (∃ r ∈ store, r.hash = rec.hash) →
      insertTranslation store rec = .error rec.hash) ∧
    (∀ (store : Store) (rec : Translation), (∀ r ∈ store, r.hash ≠ rec.hash) →
      insertTranslation store rec = .ok (store ++ [rec])) ∧
    (∀ (gh : String → String) (ratio : String → String → ℚ)
        (provider : String → Except String String) (texts : List String)
        (store : Store) (e : EngineError) (s : Store),
      translateLoop gh ratio provider store texts = .error (e, s) →
      ∃ msg, e = .provider msg) ∧
    (∀ (gh : String → String) (ratio : String → String → ℚ)
        (provider : String → Except String String) (texts : List String)
        (store : Store) (out : LoopOut),
      (store.map Translation.hash).Nodup →
      translateLoop gh ratio provider store texts = .ok out →
      (out.store.map Translation.hash).Nodup) :=
  ⟨insertTranslation_dup, insertTranslation_ok,
   fun gh ratio provider texts store e s h =>
     translateLoop_error_provider gh ratio provider texts store e s h,
   fun gh ratio provider texts store out h1 h2 =>
     translateLoop_nodup gh ratio provider texts store out h1 h2⟩

/-- Witness for C5 (amended) at concrete inputs. -/
theorem claim_C5_witness :
    insertTranslation [⟨"k", "a", "b"⟩] ⟨"k", "a", "c"⟩ =
      .error (Translation.mk "k" "a" "c").hash ∧
    insertTranslation [] ⟨"k", "a", "c"⟩ = .ok ([] ++ [⟨"k", "a", "c"⟩]) ∧
    (∃ msg, EngineError.provider "down:a" = .provider msg) ∧
    (([⟨"a", "a", "a!"⟩, ⟨"b", "b", "b!"⟩] : Store).map Translation.hash).Nodup :=
  ⟨claim_C5.1 [⟨"k", "a", "b"⟩] ⟨"k", "a", "c"⟩ ⟨⟨"k", "a", "b"⟩, by simp, rfl⟩,
   claim_C5.2.1 [] ⟨"k", "a", "c"⟩ (by simp),
   claim_C5.2.2.1 idHash zeroRatio failProvider ["a"] [] (.provider "down:a") []
     failLoop_eval,
   claim_C5.2.2.2 idHash zeroRatio demoProvider ["a", "b", "a", "b"] []
     ⟨[⟨"a", "a!", .new, none⟩, ⟨"b", "b!", .new, none⟩,
        ⟨"a", "a!", .exact, some 1⟩, ⟨"b", "b!", .exact, some 1⟩],
       [⟨"a", "a", "a!"⟩, ⟨"b", "b", "b!"⟩], 2, 0, 2, ["a", "b"]⟩
     (by simp) demoLoop_eval⟩

/-- C8: a normal return of `translate_batch` has exactly one result per
input unit, in input order, each tagged with its own original text. -/
theorem claim_C8 :
    ∀ (gh : String → String) (ratio : String → String → ℚ)
      (provider : String → Except String String) (store : Store) (texts : List String)
      (bo : BatchOutput) (s : Store) (calls : List String),
      translate_batch gh ratio provider store texts = .ok (bo, s, calls) →
      bo.translations.map TResult.original = texts ∧
      bo.translations.length = texts.length := by
  intro gh ratio provider store texts bo s calls h
  obtain ⟨out, hl, hbo, -, -⟩ := translate_batch_ok_parts _ _ _ _ _ _ _ _ h
  obtain ⟨hmap, -, -, -, -, -⟩ := translateLoop_ok_spec _ _ _ _ _ _ hl
  subst hbo
  refine ⟨hmap, ?_⟩
  have hlen := congrArg List.length hmap
  simpa using hlen

/-- Witness for C8 on the concrete batch `["a", "b", "a", "b"]`. -/
theorem claim_C8_witness :
    ([⟨"a", "a!", .new, none⟩, ⟨"b", "b!", .new, none⟩,
      ⟨"a", "a!", .exact, some 1⟩, ⟨"b", "b!", .exact, some 1⟩] : List TResult).map
        TResult.original = ["a", "b", "a", "b"] ∧
    ([⟨"a", "a!", .new, none⟩, ⟨"b", "b!", .new, none⟩,
      ⟨"a", "a!", .exact, some 1⟩, ⟨"b", "b!", .exact, some 1⟩] : List TResult).length =
      (["a", "b", "a", "b"] : List String).length :=
  claim_C8 idHash zeroRatio demoProvider [] ["a", "b", "a", "b"]
    ⟨[⟨"a", "a!", .new, none⟩, ⟨"b", "b!", .new, none⟩,
        ⟨"a", "a!", .exact, some 1⟩, ⟨"b", "b!", .exact, some 1⟩],
      ⟨4, 2, 0, 2, 50⟩⟩
    [⟨"a", "a", "a!"⟩, ⟨"b", "b", "b!"⟩] ["a", "b"] demoBatch_eval

/-- C9: exact and fuzzy hits write nothing; the store after a successful
batch is the store before plus exactly one record per `new`-tagged
(remote-resolved) result, in order — nothing is updated or deleted. -/
theorem claim_C9 :
    ∀ (gh : String → String) (ratio : String → String → ℚ)
      (provider : String → Except String String) (store : Store) (texts : List String)
      (bo : BatchOutput) (s : Store) (calls : List String),
      translate_batch gh ratio provider store texts = .ok (bo, s, calls) →
      s = store ++ newRecords gh bo.translations ∧
      (newRecords gh bo.translations).length = bo.stats.openai_hits := by
  intro gh ratio provider store texts bo s calls h
  obtain ⟨out, hl, hbo, hs, -⟩ := translate_batch_ok_parts _ _ _ _ _ _ _ _ h
  obtain ⟨-, -, -, ho, -, hstore⟩ := translateLoop_ok_spec _ _ _ _ _ _ hl
  subst hbo
  subst hs
  refine ⟨hstore, ?_⟩
  simp only [newRecords, List.length_map, ho, List.countP_eq_length_filter]

/-- Witness for C9 on the concrete batch `["a", "b", "a", "b"]`. -/
theorem claim_C9_witness :
    ([⟨"a", "a", "a!"⟩, ⟨"b", "b", "b!"⟩] : Store) =
      [] ++ newRecords idHash
        [⟨"a", "a!", .new, none⟩, ⟨"b", "b!", .new, none⟩,
          ⟨"a", "a!", .exact, some 1⟩, ⟨"b", "b!", .exact, some 1⟩] ∧
    (newRecords idHash
      [⟨"a", "a!", .new, none⟩, ⟨"b", "b!", .new, none⟩,
        ⟨"a", "a!", .exact, some 1⟩, ⟨"b", "b!", .exact, some 1⟩]).length = 2 :=
  claim_C9 idHash zeroRatio demoProvider [] ["a", "b", "a", "b"]
    ⟨[⟨"a", "a!", .new, none⟩, ⟨"b", "b!", .new, none⟩,
        ⟨"a", "a!", .exact, some 1⟩, ⟨"b", "b!", .exact, some 1⟩],
      ⟨4, 2, 0, 2, 50⟩⟩
    [⟨"a", "a", "a!"⟩, ⟨"b", "b", "b!"⟩] ["a", "b"] demoBatch_eval

/-- C10: on every normal return the counters are consistent with the
results: each counter counts the results carrying the corresponding tag,
and `memory_hits + fuzzy_hits + openai_hits = total = len(texts)` = number
of results. -/
theorem claim_C10 :
    ∀ (gh : String → String) (ratio : String → String → ℚ)
      (provider : String → Except String String) (store : Store) (texts : List String)
      (bo : BatchOutput) (s : Store) (calls : List String),
      translate_batch gh ratio provider store texts = .ok (bo, s, calls) →
      bo.stats.memory_hits + bo.stats.fuzzy_hits + bo.stats.openai_hits =
        bo.stats.total ∧
      bo.stats.total = texts.length ∧
      bo.translations.length = texts.length ∧
      bo.stats.memory_hits =
        bo.translations.countP (fun res => res.match_type == MatchType.exact) ∧
      bo.stats.fuzzy_hits =
        bo.translations.countP (fun res => res.match_type == MatchType.fuzzy) ∧
      bo.stats.openai_hits =
        bo.translations.countP (fun res => res.match_type == MatchType.new) := by
  intro gh ratio provider store texts bo s calls h
  obtain ⟨out, hl, hbo, -, -⟩ := translate_batch_ok_parts _ _ _ _ _ _ _ _ h
  obtain ⟨hmap, hm, hf, ho, hsum, -⟩ := translateLoop_ok_spec _ _ _ _ _ _ hl
  subst hbo
  have hlen : out.results.length = texts.length := by
    have := congrArg List.length hmap
    simpa using this
  exact ⟨hsum, rfl, hlen, hm, hf, ho⟩

/-- Witness for C10 on the concrete batch `["a", "b", "a", "b"]`. -/
theorem claim_C10_witness :
    2 + 0 + 2 = 4 ∧
    4 = (["a", "b", "a", "b"] : List String).length ∧
    ([⟨"a", "a!", .new, none⟩, ⟨"b", "b!", .new, none⟩,
      ⟨"a", "a!", .exact, some 1⟩, ⟨"b", "b!", .exact, some 1⟩] : List TResult).length =
      (["a", "b", "a", "b"] : List String).length ∧
    2 = ([⟨"a", "a!", .new, none⟩, ⟨"b", "b!", .new, none⟩,
      ⟨"a", "a!", .exact, some 1⟩, ⟨"b", "b!", .exact, some 1⟩] : List TResult).countP
        (fun res => res.match_type == MatchType.exact) ∧
    0 = ([⟨"a", "a!", .new, none⟩, ⟨"b", "b!", .new, none⟩,
      ⟨"a", "a!", .exact, some 1⟩, ⟨"b", "b!", .exact, some 1⟩] : List TResult).countP
        (fun res => res.match_type == MatchType.fuzzy) ∧
    2 = ([⟨"a", "a!", .new, none⟩, ⟨"b", "b!", .new, none⟩,
      ⟨"a", "a!", .exact, some 1⟩, ⟨"b", "b!", .exact, some 1⟩] : List TResult).countP
        (fun res => res.match_type == MatchType.new) :=
  claim_C10 idHash zeroRatio demoProvider [] ["a", "b", "a", "b"]
    ⟨[⟨"a", "a!", .new, none⟩, ⟨"b", "b!", .new, none⟩,
        ⟨"a", "a!", .exact, some 1⟩, ⟨"b", "b!", .exact, some 1⟩],
      ⟨4, 2, 0, 2, 50⟩⟩
    [⟨"a", "a", "a!"⟩, ⟨"b", "b", "b!"⟩] ["a", "b"] demoBatch_eval

/-- C6: the batch efficiency equals
`(memory_hits + fuzzy_hits) / total * 100` rounded to 2 decimal places, and
`0` when `total = 0`; a 10-unit batch with 3 exact, 2 fuzzy and 5 remote
hits yields efficiency `50`; the empty batch yields empty results with all
stats zero. -/
theorem claim_C6 :
    (∀ (gh : String → String) (ratio : String → String → ℚ)
        (provider : String → Except String String) (store : Store)
        (texts : List String) (bo : BatchOutput) (s : Store) (calls : List String),
      translate_batch gh ratio provider store texts = .ok (bo, s, calls) →
      bo.stats.efficiency = (if bo.stats.total = 0 then 0 else
        round2 (((bo.stats.memory_hits : ℚ) + (bo.stats.fuzzy_hits : ℚ)) /
          (bo.stats.total : ℚ) * 100))) ∧
    (∀ (gh : String → String) (ratio : String → String → ℚ)
        (provider : String → Except String String) (store : Store)
        (texts : List String) (bo : BatchOutput) (s : Store) (calls : List String),
      translate_batch gh ratio provider store texts = .ok (bo, s, calls) →
      texts.length = 10 → bo.stats.memory_hits = 3 → bo.stats.fuzzy_hits = 2 →
      bo.stats.openai_hits = 5 → bo.stats.efficiency = 50) ∧
    (∀ (gh : String → String) (ratio : String → String → ℚ)
        (provider : String → Except String String) (store : Store),
      translate_batch gh ratio provider store [] =
        .ok (⟨[], ⟨0, 0, 0, 0, 0⟩⟩, store, [])) := by
  have hA : ∀ (gh : String → String) (ratio : String → String → ℚ)
      (provider : String → Except String String) (store : Store)
      (texts : List String) (bo : BatchOutput) (s : Store) (calls : List String),
      translate_batch gh ratio provider store texts = .ok (bo, s, calls) →
      bo.stats.efficiency = (if bo.stats.total = 0 then 0 else
        round2 (((bo.stats.memory_hits : ℚ) + (bo.stats.fuzzy_hits : ℚ)) /
          (bo.stats.total : ℚ) * 100)) := by
    intro gh ratio provider store texts bo s calls h
    obtain ⟨out, -, hbo, -, -⟩ := translate_batch_ok_parts _ _ _ _ _ _ _ _ h
    subst hbo
    cases texts with
    | nil => simp
    | cons t ts => simp
  refine ⟨hA, ?_, ?_⟩
  · intro gh ratio provider store texts bo s calls h h10 hm hf ho
    have heff := hA gh ratio provider store texts bo s calls h
    obtain ⟨out, -, hbo, -, -⟩ := translate_batch_ok_parts _ _ _ _ _ _ _ _ h
    have htot : bo.stats.total = 10 := by rw [hbo]; simpa using h10
    rw [heff, htot, hm, hf]
    norm_num [round2, roundHalfEven]
  · intro gh ratio provider store
    rfl

/-- Witness for C6: the mixed 10-unit batch (3 exact, 2 fuzzy, 5 remote)
has efficiency `50`, and the empty batch yields all-zero stats. -/
theorem claim_C6_witness :
    (BatchOutput.mk
      [⟨"e1", "E1", .exact, some 1⟩, ⟨"e2", "E2", .exact, some 1⟩,
        ⟨"e3", "E3", .exact, some 1⟩, ⟨"g1", "E1", .fuzzy, some (91/100)⟩,
        ⟨"g2", "E1", .fuzzy, some (91/100)⟩, ⟨"n1", "n1!", .new, none⟩,
        ⟨"n2", "n2!", .new, none⟩, ⟨"n3", "n3!", .new, none⟩,
        ⟨"n4", "n4!", .new, none⟩, ⟨"n5", "n5!", .new, none⟩]
      ⟨10, 3, 2, 5, 50⟩).stats.efficiency = 50 ∧
    translate_batch idHash zeroRatio demoProvider [] [] =
      .ok (⟨[], ⟨0, 0, 0, 0, 0⟩⟩, [], []) :=
  ⟨claim_C6.2.1 idHash demoRatio demoProvider eStore
      ["e1", "e2", "e3", "g1", "g2", "n1", "n2", "n3", "n4", "n5"]
      ⟨[⟨"e1", "E1", .exact, some 1⟩, ⟨"e2", "E2", .exact, some 1⟩,
          ⟨"e3", "E3", .exact, some 1⟩, ⟨"g1", "E1", .fuzzy, some (91/100)⟩,
          ⟨"g2", "E1", .fuzzy, some (91/100)⟩, ⟨"n1", "n1!", .new, none⟩,
          ⟨"n2", "n2!", .new, none⟩, ⟨"n3", "n3!", .new, none⟩,
          ⟨"n4", "n4!", .new, none⟩, ⟨"n5", "n5!", .new, none⟩],
        ⟨10, 3, 2, 5, 50⟩⟩
      (eStore ++ [⟨"n1", "n1", "n1!"⟩, ⟨"n2", "n2", "n2!"⟩, ⟨"n3", "n3", "n3!"⟩,
        ⟨"n4", "n4", "n4!"⟩, ⟨"n5", "n5", "n5!"⟩])
      ["n1", "n2", "n3", "n4", "n5"]
      bigBatch_eval rfl rfl rfl rfl,
   claim_C6.2.2 idHash zeroRatio demoProvider []⟩

/-- C1: the three tiers run in strict order with the first success
short-circuiting the rest.  (1) An exact hit yields the stored translation
tagged `exact` with similarity `1` and touches neither the fuzzy matcher
nor the provider (the step's outcome does not depend on either, the store
is unchanged, no remote call is recorded).  (2) Only on an exact miss does
the fuzzy matcher run; a matcher hit strictly above `0.9` yields a `fuzzy`
result and no remote call.  (3) Only when the fuzzy tier also fails does
the loop body run the remote-call block.  (4) On the whole batch: a
one-unit batch with an exact hit returns the exact result with no remote
calls and an unchanged store. -/
theorem claim_C1 :
    (∀ (gh : String → String) (ratio : String → String → ℚ)
        (provider : String → Except String String) (store : Store) (text : String)
        (rec : Translation),
      lookupExact store (gh text) = some rec →
      processUnit gh ratio provider store text =
        .ok ⟨⟨text, rec.translated, .exact, some 1⟩, store, 1, 0, 0, none⟩) ∧
    (∀ (gh : String → String) (ratio : String → String → ℚ)
        (provider : String → Except String String) (store : Store) (text : String)
        (fm : Translation) (r : ℚ),
      lookupExact store (gh text) = none →
      find_fuzzy_match ratio store text (9/10) = (some fm, r) → 9/10 < r →
      processUnit gh ratio provider store text =
        .ok ⟨⟨text, fm.translated, .fuzzy, some r⟩, store, 0, 1, 0, none⟩) ∧
    (∀ (gh : String → String) (ratio : String → String → ℚ)
        (provider : String → Except String String) (store : Store) (text : String)
        (fm : Option Translation) (r : ℚ),
      lookupExact store (gh text) = none →
      find_fuzzy_match ratio store text (9/10) = (fm, r) →
      (fm = none ∨ r ≤ 9/10) →
      processUnit gh ratio provider store text = remoteCall gh provider store text) ∧
    (∀ (gh : String → String) (ratio : String → String → ℚ)
        (provider : String → Except String String) (store : Store) (text : String)
        (rec : Translation),
      lookupExact store (gh text) = some rec →
      translate_batch gh ratio provider store [text] =
        .ok (⟨[⟨text, rec.translated, .exact, some 1⟩], ⟨1, 1, 0, 0, 100⟩⟩,
          store, [])) := by
  refine ⟨processUnit_exact, processUnit_fuzzy, ?_, ?_⟩
  · intro gh ratio provider store text fm r hl hf hno
    rcases hno with rfl | hle
    · simp [processUnit, hl, hf]
    · exact processUnit_remote gh ratio provider store text fm r hl hf hle
  · intro gh ratio provider store text rec hl
    have h1 := processUnit_exact gh ratio provider store text rec hl
    simp only [translate_batch, translateLoop, h1]
    norm_num [round2, roundHalfEven]

/-- Witness for C1 at concrete inputs, one per tier plus the one-unit
batch. -/
theorem claim_C1_witness :
    processUnit idHash zeroRatio demoProvider [⟨"a", "a", "x"⟩] "a" =
      .ok ⟨⟨"a", "x", .exact, some 1⟩, [⟨"a", "a", "x"⟩], 1, 0, 0, none⟩ ∧
    processUnit idHash ratioW demoProvider [⟨"h2", "c2", "t2"⟩] "x" =
      .ok ⟨⟨"x", "t2", .fuzzy, some (95/100)⟩, [⟨"h2", "c2", "t2"⟩], 0, 1, 0, none⟩ ∧
    processUnit idHash zeroRatio demoProvider [⟨"b", "b", "y"⟩] "a" =
      remoteCall idHash demoProvider [⟨"b", "b", "y"⟩] "a" ∧
    translate_batch idHash zeroRatio demoProvider [⟨"a", "a", "x"⟩] ["a"] =
      .ok (⟨[⟨"a", "x", .exact, some 1⟩], ⟨1, 1, 0, 0, 100⟩⟩, [⟨"a", "a", "x"⟩], []) :=
  ⟨claim_C1.1 idHash zeroRatio demoProvider [⟨"a", "a", "x"⟩] "a" ⟨"a", "a", "x"⟩
      (by decide),
   claim_C1.2.1 idHash ratioW demoProvider [⟨"h2", "c2", "t2"⟩] "x" ⟨"h2", "c2", "t2"⟩
      (95/100) (by decide) ffm_w2 (by norm_num),
   claim_C1.2.2.1 idHash zeroRatio demoProvider [⟨"b", "b", "y"⟩] "a" none 0
      (by decide) (ffm_zero _ _) (Or.inl rfl),
   claim_C1.2.2.2 idHash zeroRatio demoProvider [⟨"a", "a", "x"⟩] "a" ⟨"a", "a", "x"⟩
      (by decide)⟩

/-- C2: the engine-level fuzzy threshold is strictly exclusive.  A best
candidate at ratio exactly `0.9` is returned by the matcher (whose own
check is `>=`) but is NOT taken as a fuzzy match by the engine guard
`ratio > 0.9` — the unit falls through to the remote-call block; any
candidate at ratio `0.91` or higher forces a fuzzy result carrying the
matcher's best ratio as its similarity. -/
theorem claim_C2 :
    (∀ (gh : String → String) (ratio : String → String → ℚ)
        (provider : String → Except String String) (store : Store) (text : String)
        (c : Translation),
      lookupExact store (gh text) = none → c ∈ store →
      ratio text c.original = 9/10 →
      (∀ x ∈ store, ratio text x.original ≤ 9/10) →
      (∃ m, find_fuzzy_match ratio store text (9/10) = (some m, 9/10)) ∧
      processUnit gh ratio provider store text = remoteCall gh provider store text) ∧
    (∀ (gh : String → String) (ratio : String → String → ℚ)
        (provider : String → Except String String) (store : Store) (text : String)
        (c : Translation),
      lookupExact store (gh text) = none → c ∈ store →
      91/100 ≤ ratio text c.original →
      ∃ m r, find_fuzzy_match ratio store text (9/10) = (some m, r) ∧ 91/100 ≤ r ∧
        processUnit gh ratio provider store text =
          .ok ⟨⟨text, m.translated, .fuzzy, some r⟩, store, 0, 1, 0, none⟩) := by
  constructor
  · intro gh ratio provider store text c hl hc h9 hub
    have hth : (9 : ℚ)/10 ≤ ratio text c.original := le_of_eq h9.symm
    rcases fuzzyLoop_achieve ratio text (9/10) store none 0 with
      h2 | ⟨m, hm, heq, hth', hlt⟩
    · have hubc := fuzzyLoop_ub ratio text (9/10) store none 0 c hc hth
      rw [h2] at hubc
      rw [h9] at hubc
      exact absurd hubc (by norm_num)
    · have hubc := fuzzyLoop_ub ratio text (9/10) store none 0 c hc hth
      rw [heq] at hubc
      have hrm : ratio text m.original = 9/10 :=
        le_antisymm (hub m hm) (h9 ▸ hubc)
      have hfind : find_fuzzy_match ratio store text (9/10) = (some m, 9/10) := by
        simp [find_fuzzy_match, heq, hrm]
      exact ⟨⟨m, hfind⟩,
        processUnit_remote gh ratio provider store text (some m) (9/10) hl hfind
          (le_refl _)⟩
  · intro gh ratio provider store text c hl hc h91
    have hth : (9 : ℚ)/10 ≤ ratio text c.original :=
      le_trans (by norm_num) h91
    rcases fuzzyLoop_achieve ratio text (9/10) store none 0 with
      h2 | ⟨m, hm, heq, hth', hlt⟩
    · have hubc := fuzzyLoop_ub ratio text (9/10) store none 0 c hc hth
      rw [h2] at hubc
      exact absurd (le_trans h91 hubc) (by norm_num)
    · have hubc := fuzzyLoop_ub ratio text (9/10) store none 0 c hc hth
      rw [heq] at hubc
      have h91m : 91/100 ≤ ratio text m.original := le_trans h91 hubc
      have hfind : find_fuzzy_match ratio store text (9/10) =
          (some m, ratio text m.original) := by
        simp [find_fuzzy_match, heq]
      exact ⟨m, ratio text m.original, hfind, h91m,
        processUnit_fuzzy gh ratio provider store text m (ratio text m.original) hl
          hfind (lt_of_lt_of_le (by norm_num) h91m)⟩

/-- Witness for C2: under `ratioW` the candidate `"c1"` sits at ratio
exactly `0.9` (remote fall-through) and the candidate `"c2"` at `0.95`
(fuzzy hit). -/
theorem claim_C2_witness :
    ((∃ m, find_fuzzy_match ratioW [⟨"h1", "c1", "t1"⟩] "x" (9/10) = (some m, 9/10)) ∧
      processUnit idHash ratioW demoProvider [⟨"h1", "c1", "t1"⟩] "x" =
        remoteCall idHash demoProvider [⟨"h1", "c1", "t1"⟩] "x") ∧
    (∃ m r, find_fuzzy_match ratioW [⟨"h2", "c2", "t2"⟩] "x" (9/10) = (some m, r) ∧
      91/100 ≤ r ∧
      processUnit idHash ratioW demoProvider [⟨"h2", "c2", "t2"⟩] "x" =
        .ok ⟨⟨"x", m.translated, .fuzzy, some r⟩, [⟨"h2", "c2", "t2"⟩],
          0, 1, 0, none⟩) :=
  ⟨claim_C2.1 idHash ratioW demoProvider [⟨"h1", "c1", "t1"⟩] "x" ⟨"h1", "c1", "t1"⟩
      (by decide) (by simp) (by norm_num [ratioW])
      (by
        intro x hx
        rcases List.mem_cons.mp hx with rfl | hx2
        · norm_num [ratioW]
        · exact absurd hx2 (List.not_mem_nil _)),
   claim_C2.2 idHash ratioW demoProvider [⟨"h2", "c2", "t2"⟩] "x" ⟨"h2", "c2", "t2"⟩
      (by decide) (by simp)
      (by
        have hn : ("c2" : String) ≠ "c1" := by decide
        norm_num [ratioW, hn])⟩

/-- C3: a record persisted by a remote success is immediately visible to
later units of the same batch: on `["Hello world", "Hello world"]` with an
empty initial store, the first unit is `new` (one remote call), the second
`exact` with the same translated text, and only one remote call is made. -/
theorem claim_C3 :
    ∀ (gh : String → String) (ratio : String → String → ℚ)
      (provider : String → Except String String) (tr : String),
      provider "Hello world" = .ok tr →
      translate_batch gh ratio provider [] ["Hello world", "Hello world"] =
        .ok (⟨[⟨"Hello world", tr, .new, none⟩, ⟨"Hello world", tr, .exact, some 1⟩],
          ⟨2, 1, 0, 1, 50⟩⟩,
          [⟨gh "Hello world", "Hello world", tr⟩], ["Hello world"]) := by
  intro gh ratio provider tr hp
  have h1 : processUnit gh ratio provider [] "Hello world" =
      .ok ⟨⟨"Hello world", tr, .new, none⟩, [⟨gh "Hello world", "Hello world", tr⟩],
        0, 0, 1, some "Hello world"⟩ := by
    rw [processUnit_remote gh ratio provider [] "Hello world" none 0 rfl
      (ffm_nil _ _ _) (by norm_num)]
    rw [remoteCall_ok gh provider [] "Hello world" tr hp (by simp)]
    rfl
  have h2 : processUnit gh ratio provider [⟨gh "Hello world", "Hello world", tr⟩]
      "Hello world" =
      .ok ⟨⟨"Hello world", tr, .exact, some 1⟩,
        [⟨gh "Hello world", "Hello world", tr⟩], 1, 0, 0, none⟩ :=
    processUnit_exact _ _ _ _ _ _ (lookupExact_head _ _ _ _)
  simp only [translate_batch, translateLoop, h1, h2]
  norm_num [round2, roundHalfEven]

/-- Witness for C3 with the always-succeeding provider double. -/
theorem claim_C3_witness :
    translate_batch idHash zeroRatio demoProvider []
      ["Hello world", "Hello world"] =
    .ok (⟨[⟨"Hello world", "Hello world!", .new, none⟩,
        ⟨"Hello world", "Hello world!", .exact, some 1⟩],
      ⟨2, 1, 0, 1, 50⟩⟩,
      [⟨"Hello world", "Hello world", "Hello world!"⟩], ["Hello world"]) :=
  claim_C3 idHash zeroRatio demoProvider "Hello world!" rfl

/-- C4: a provider error propagates out of `translate_batch` — the batch
aborts with the exception and no partial results — while every record
persisted for earlier units of the same batch remains committed: (1) the
failing unit turns the loop into the error carrying the current store;
(2) an error in the tail propagates unchanged past an earlier successful
unit; (3) the store carried by any loop error extends the store the batch
started from. -/
theorem claim_C4 :
    (∀ (gh : String → String) (ratio : String → String → ℚ)
        (provider : String → Except String String) (store : Store) (text : String)
        (rest : List String) (fm : Option Translation) (r : ℚ) (e : String),
      lookupExact store (gh text) = none →
      find_fuzzy_match ratio store text (9/10) = (fm, r) → r ≤ 9/10 →
      provider text = .error e →
      translateLoop gh ratio provider store (text :: rest) =
        .error (.provider e, store)) ∧
    (∀ (gh : String → String) (ratio : String → String → ℚ)
        (provider : String → Except String String) (store : Store) (t : String)
        (ts : List String) (step : StepOut) (e : EngineError) (s : Store),
      processUnit gh ratio provider store t = .ok step →
      translateLoop gh ratio provider step.store ts = .error (e, s) →
      translateLoop gh ratio provider store (t :: ts) = .error (e, s)) ∧
    (∀ (gh : String → String) (ratio : String → String → ℚ)
        (provider : String → Except String String) (texts : List String)
        (store : Store) (e : EngineError) (s : Store),
      translateLoop gh ratio provider store texts = .error (e, s) →
      ∃ added, s = store ++ added) := by
  refine ⟨?_, ?_, ?_⟩
  · intro gh ratio provider store text rest fm r e hl hf hr hp
    have hpu := processUnit_remote gh ratio provider store text fm r hl hf hr
    have hrc := remoteCall_err gh provider store text e hp
    simp [translateLoop, hpu, hrc]
  · intro gh ratio provider store t ts step e s h1 h2
    simp [translateLoop, h1, h2]
  · exact fun gh ratio provider texts store e s h =>
      translateLoop_error_extends gh ratio provider texts store e s h

/-- Witness for C4: the failing provider aborts a singleton batch leaving
the store as it was; the mixed provider fails on the second unit and the
record committed for the first remains. -/
theorem claim_C4_witness :
    translateLoop idHash zeroRatio failProvider [] ["a"] =
      .error (.provider "down:a", []) ∧
    translateLoop idHash zeroRatio mixedProvider [] ["a", "b"] =
      .error (.provider "boom", [⟨"a", "a", "a!"⟩]) ∧
    (∃ added, ([⟨"a", "a", "a!"⟩] : Store) = [] ++ added) := by
  have h2 : translateLoop idHash zeroRatio mixedProvider [] ["a", "b"] =
      .error (.provider "boom", [⟨"a", "a", "a!"⟩]) :=
    claim_C4.2.1 idHash zeroRatio mixedProvider [] "a" ["b"]
      ⟨⟨"a", "a!", .new, none⟩, [⟨"a", "a", "a!"⟩], 0, 0, 1, some "a"⟩
      (.provider "boom") [⟨"a", "a", "a!"⟩] mixedStep_a mixedLoop_tail
  exact ⟨claim_C4.1 idHash zeroRatio failProvider [] "a" [] none 0 "down:a" rfl
      (ffm_nil _ _ _) (by norm_num) rfl,
    h2,
    claim_C4.2.2 idHash zeroRatio mixedProvider ["a", "b"] [] (.provider "boom")
      [⟨"a", "a", "a!"⟩] h2⟩

end TranslationApp
